import Mathlib

/-!
Verification of the correlation and retry core of the calendly-attio-sync
service (src/index.js booking store, src/services/heyreach-store.js pending
lead store, src/services/calendly.js transcript polling, src/services/config.js
retry settings).

Shallow embedding notes:
* JavaScript strings are modelled as Lean `String` (lists of characters);
  `toLowerCase`/`trim` are modelled for the ASCII range (`lowerChar`,
  `isWsChar`), which covers every input the service handles.
* The WHATWG `new URL(...)` parser used by `normalizeUrl` is modelled on the
  common shape `scheme://host[/path][?query][#fragment]`: the scheme must
  start with a letter and consist of scheme characters, the host runs to the
  first `/`, `?` or `#`; serialization lower-cases scheme and host and writes
  `/` for an empty path, exactly as `URL.prototype.toString` does on this
  shape.  Percent-encoding and host validation beyond the separator
  characters are not modelled; none of the inputs below need them.
* JavaScript truthiness on optional string fields (absent, `null`, or `""`
  are all falsy) is modelled by `Option String` plus an emptiness test.
* Timestamps (`Date.now()`, parsed ISO dates) are modelled as integer
  milliseconds; the stores take the clock as an explicit argument.
* `Map` objects are modelled as association lists in insertion order;
  `Map.set` replaces in place, `Map.delete` removes the keyed entry.
-/

namespace CalendlyAttio

/-! ## ASCII character model -/

/-- Models `String.prototype.toLowerCase` on a single ASCII character:
uppercase letters map to the code point 32 above, all else is unchanged. -/
def lowerChar (c : Char) : Char :=
  if 'A' ≤ c ∧ c ≤ 'Z' then Char.ofNat (c.toNat + 32) else c

/-- Lower-case every character of a list (JS `toLowerCase`, ASCII range). -/
def lowerL (l : List Char) : List Char := l.map lowerChar

/-- Lower-case a string (JS `toLowerCase`, ASCII range). -/
def lowerStr (s : String) : String := String.mk (lowerL s.data)

/-- ASCII whitespace stripped by `String.prototype.trim`. -/
def isWsChar (c : Char) : Bool :=
  c == ' ' || c == '\t' || c == '\n' || c == '\r' || c == '\x0b' || c == '\x0c'

/-- Models `String.prototype.trim` (ASCII whitespace). -/
def trimL (l : List Char) : List Char :=
  ((l.dropWhile isWsChar).reverse.dropWhile isWsChar).reverse

/-! ## Generic URL normalizer (src/index.js `normalizeUrl`) -/

/-- Characters allowed in a URL scheme after the initial letter. -/
def isSchemeChar (c : Char) : Bool :=
  c.isAlpha || c.isDigit || c == '+' || c == '-' || c == '.'

/-- True while still inside the host component (stops at `/`, `?`, `#`). -/
def notHostEnd (c : Char) : Bool :=
  c != '/' && c != '?' && c != '#'

/-- Splits a character list at the first occurrence of `sep`, returning the
parts before and after it. -/
def splitFirst (sep : List Char) : List Char → Option (List Char × List Char)
  | [] => none
  | c :: cs =>
    if sep.isPrefixOf (c :: cs) then some ([], (c :: cs).drop sep.length)
    else
      match splitFirst sep cs with
      | some (pre, post) => some (c :: pre, post)
      | none => none

/-- Components of a parsed URL. -/
structure UrlParts where
  scheme : List Char
  host : List Char
  path : List Char
  query : List Char
  frag : List Char
deriving DecidableEq

/-- Models `new URL(s)` on the `scheme://host[/path][?query][#fragment]`
shape; returns `none` where the WHATWG parser would throw on this shape. -/
def parseUrl (l : List Char) : Option UrlParts :=
  match splitFirst [':', '/', '/'] l with
  | none => none
  | some (scheme, rest) =>
    let host := rest.takeWhile notHostEnd
    let rest2 := rest.dropWhile notHostEnd
    let pq := rest2.takeWhile (fun c => c != '#')
    let frag := rest2.dropWhile (fun c => c != '#')
    let path := pq.takeWhile (fun c => c != '?')
    let query := pq.dropWhile (fun c => c != '?')
    if scheme.isEmpty then none
    else if !((scheme.headD ' ').isAlpha) then none
    else if !(scheme.all isSchemeChar) then none
    else if host.isEmpty then none
    else some ⟨scheme, host, path, query, frag⟩

/-- Models `URL.prototype.toString`: lower-cased scheme and host, `/` for an
empty path, then query and fragment. -/
def serializeUrl (u : UrlParts) : List Char :=
  lowerL u.scheme ++ [':', '/', '/'] ++ lowerL u.host ++
    (if u.path.isEmpty then ['/'] else u.path) ++ u.query ++ u.frag

/-- Embeds `normalizeUrl` from src/index.js: parse the URL, clear its hash
(fragment) and re-serialize; on a parse failure return the input unchanged. -/
def normalizeUrl (s : String) : String :=
  match parseUrl s.data with
  | some u => String.mk (serializeUrl { u with frag := [] })
  | none => s

/-! ## LinkedIn URL normalizer (heyreach-store.js `normalizeLinkedInUrl`) -/

/-- Strips a trailing run of `/` characters (JS `replace(/\/+$/, '')`). -/
def stripSlashes (l : List Char) : List Char :=
  (l.reverse.dropWhile (fun c => c == '/')).reverse

/-- The literal part of the profile regex `/linkedin\.com\/in\/([^\/]+)/`. -/
def inPat : List Char := "linkedin.com/in/".data

/-- Canonical profile URL prefix produced by the normalizer. -/
def canonPre : List Char := "https://www.linkedin.com/in/".data

/-- Models `url.match(/linkedin\.com\/in\/([^\/]+)/)`: find the first
position where the literal matches and is followed by at least one
non-slash character, and return that maximal non-slash run (the capture). -/
def findProfile : List Char → Option (List Char)
  | [] => none
  | c :: cs =>
    if inPat.isPrefixOf (c :: cs) then
      if (((c :: cs).drop inPat.length).takeWhile (fun d => d != '/')).isEmpty then
        findProfile cs
      else some (((c :: cs).drop inPat.length).takeWhile (fun d => d != '/'))
    else findProfile cs

/-- Embeds `normalizeLinkedInUrl`: falsy input gives `null`; otherwise
lower-case and trim, drop the query string, strip trailing slashes, and
reduce a `linkedin.com/in/<handle>` match to the canonical profile URL. -/
def normalizeLinkedInUrl : Option String → Option String
  | none => none
  | some s =>
    if s.data.isEmpty then none
    else
      match findProfile (stripSlashes ((trimL (lowerL s.data)).takeWhile
          (fun c => c != '?'))) with
      | some handle => some (String.mk (canonPre ++ handle))
      | none =>
        some (String.mk (stripSlashes ((trimL (lowerL s.data)).takeWhile
          (fun c => c != '?'))))

/-! ## Association-list model of JS `Map` -/

/-- Models `Map.prototype.set`: replace in place if the key exists, else
append (insertion order preserved). -/
def mapSet {α : Type} (k : String) (v : α) : List (String × α) → List (String × α)
  | [] => [(k, v)]
  | (k', v') :: rest => if k' == k then (k, v) :: rest else (k', v') :: mapSet k v rest

/-- Models `Map.prototype.get` (with `undefined` as `none`). -/
def mapGet {α : Type} (k : String) : List (String × α) → Option α
  | [] => none
  | (k', v') :: rest => if k' == k then some v' else mapGet k rest

/-- Models `Map.prototype.delete`. -/
def mapDelete {α : Type} (k : String) (m : List (String × α)) : List (String × α) :=
  m.filter (fun p => p.1 != k)

/-- Collapses a JS-falsy string (`none` or `""`) to `none`. -/
def truthyS : Option String → Option String
  | none => none
  | some s => if s.data.isEmpty then none else some s

/-! ## Pending-lead store (src/services/heyreach-store.js) -/

/-- Lead payload passed to `addPendingLead` (fields may be absent). -/
structure Lead where
  linkedinUrl : Option String
  name : Option String
  conversation : Option String
  taggedAt : Option String
deriving DecidableEq

/-- Value stored in the pending-lead map: the spread of the lead with
`linkedinUrl` overridden by the normalized key and an `addedAt` stamp. -/
structure StoredLead where
  linkedinUrl : String
  name : Option String
  conversation : Option String
  taggedAt : Option String
  addedAt : Int
deriving DecidableEq

/-- The pending-lead map, keyed by normalized LinkedIn URL. -/
abbrev PendingStore : Type := List (String × StoredLead)

/-- Embeds `addPendingLead`: normalize the URL (falsy result aborts), then
store the lead under the normalized key with `linkedinUrl` replaced by the
key and an `addedAt` stamp; returns the key used. -/
def addPendingLead (now : Int) (lead : Lead) (store : PendingStore) :
    Option String × PendingStore :=
  match truthyS (normalizeLinkedInUrl lead.linkedinUrl) with
  | none => (none, store)
  | some k =>
    (some k, mapSet k ⟨k, lead.name, lead.conversation, lead.taggedAt, now⟩ store)

/-- Embeds `getPendingLead`: normalize the URL (falsy result aborts), look
the key up, and delete the entry when it was found (get-and-delete). -/
def getPendingLead (url : Option String) (store : PendingStore) :
    Option StoredLead × PendingStore :=
  match truthyS (normalizeLinkedInUrl url) with
  | none => (none, store)
  | some k =>
    match mapGet k store with
    | some lead => (some lead, mapDelete k store)
    | none => (none, store)

/-- Embeds `hasPendingLead`. -/
def hasPendingLead (url : Option String) (store : PendingStore) : Bool :=
  match truthyS (normalizeLinkedInUrl url) with
  | none => false
  | some k => (mapGet k store).isSome

/-! ## Booking store (src/index.js) -/

/-- 24 hours in milliseconds (`TTL_MS` in src/index.js). -/
def TTL_MS : Int := 1000 * 60 * 60 * 24

/-- Booking record from Calendly (optional fields may be absent or empty). -/
structure Booking where
  eventUuid : String
  meetingUrl : Option String
  startTime : Option Int
  endTime : Option Int
  guestEmail : Option String
  guestName : Option String
  hostEmail : Option String
deriving DecidableEq

/-- Stored booking: the record plus its `createdAt` insertion stamp. -/
structure StoredBooking extends Booking where
  createdAt : Int
deriving DecidableEq

/-- Incoming Fathom webhook fields used by `findMatch`. -/
structure Candidate where
  meetingUrl : Option String
  guestEmail : Option String
  hostEmail : Option String
  startTime : Option Int
deriving DecidableEq

/-- JS truthiness of an optional string field. -/
def present : Option String → Bool
  | none => false
  | some s => !s.data.isEmpty

/-- Models `Map.set(record.eventUuid, ...)` on the booking list. -/
def setBooking (r : StoredBooking) : List StoredBooking → List StoredBooking
  | [] => [r]
  | b :: rest => if b.eventUuid == r.eventUuid then r :: rest else b :: setBooking r rest

/-- Embeds `cleanup`: delete every record with `now - createdAt > TTL_MS`. -/
def cleanup (now : Int) (store : List StoredBooking) : List StoredBooking :=
  store.filter (fun r => decide (now - r.createdAt ≤ TTL_MS))

/-- Embeds `addBooking`: write the record (stamped with `createdAt = now`)
under its event UUID, then run the sweep. -/
def addBooking (now : Int) (record : Booking) (store : List StoredBooking) :
    List StoredBooking :=
  cleanup now (setBooking ⟨record, now⟩ store)

/-- The `matchGuest` conjunct of `emailsAlign`: both guest emails truthy and
equal after lower-casing. -/
def matchGuestB : Option String → Option String → Bool
  | some a, some b => !a.data.isEmpty && !b.data.isEmpty && (lowerStr a == lowerStr b)
  | _, _ => false

/-- The `matchHost` conjunct of `emailsAlign`: a falsy host email on either
side is a wildcard, otherwise the host emails must be equal after
lower-casing. -/
def matchHostB : Option String → Option String → Bool
  | some a, some b => a.data.isEmpty || b.data.isEmpty || (lowerStr a == lowerStr b)
  | _, _ => true

/-- Embeds `emailsAlign`: guest emails must both be truthy and equal after
lower-casing; host emails only matter when both are truthy. -/
def emailsAlign (recG recH candG candH : Option String) : Bool :=
  matchGuestB recG candG && matchHostB recH candH

/-- Absolute start-time distance is within 15 minutes (both present). -/
def timeClose : Option Int → Option Int → Bool
  | some a, some b => decide ((a - b).natAbs ≤ 15 * 60 * 1000)
  | _, _ => false

/-- One iteration of the `findMatch` loop over the live records: URL branch
first, then the time-proximity branch, each gated on `emailsAlign`. -/
def findLoop (c : Candidate) : List StoredBooking → Option StoredBooking
  | [] => none
  | rec :: rest =>
    if (present c.meetingUrl && present rec.meetingUrl &&
        (normalizeUrl (rec.meetingUrl.getD "") == normalizeUrl (c.meetingUrl.getD ""))) &&
       emailsAlign rec.guestEmail rec.hostEmail c.guestEmail c.hostEmail then
      some rec
    else if timeClose rec.startTime c.startTime &&
        emailsAlign rec.guestEmail rec.hostEmail c.guestEmail c.hostEmail then
      some rec
    else findLoop c rest

/-- Embeds `findMatch`: sweep first, refuse to match when both `meetingUrl`
and `startTime` are falsy, otherwise scan the live records. -/
def findMatch (now : Int) (store : List StoredBooking) (c : Candidate) :
    Option StoredBooking :=
  let live := cleanup now store
  if !present c.meetingUrl && !c.startTime.isSome then none
  else findLoop c live

/-! ## Transcript polling (src/services/calendly.js, src/services/config.js) -/

/-- Retry settings block of `getConfig` in src/services/config.js. -/
structure RetryConfig where
  maxAttempts : Nat
  baseDelayMs : Nat
  maxDelayMs : Nat
deriving DecidableEq

/-- The literal retry settings from `getConfig`. -/
def configRetry : RetryConfig := { maxAttempts := 5, baseDelayMs := 30000, maxDelayMs := 900000 }

/-- Validity predicate of `pollForTranscript`: the extracted transcript is
truthy and longer than 50 characters. -/
def transcriptValid : Option String → Bool
  | none => false
  | some t => decide (50 < t.data.length)

/-- One fetch behaviour: for each attempt number, either a thrown error or
a response whose extracted transcript field is returned. -/
def FetchBehaviour : Type := Nat → Except String (Option String)

/-- The body of the polling `for` loop, structurally recursing on the number
of attempts still allowed (`remaining + 1` attempts left, current attempt
number `attempt`).  Returns the result, the number of fetch calls made, and
the list of delays awaited after non-final attempts. -/
def pollGo (fetch : FetchBehaviour) (base : Nat) (attempt : Nat) :
    Nat → Option String × Nat × List Nat
  | 0 => (none, 0, [])
  | remaining + 1 =>
    match fetch attempt with
    | .ok t =>
      if transcriptValid t then (t, 1, [])
      else if remaining == 0 then (none, 1, [])
      else ((pollGo fetch base (attempt + 1) remaining).1,
            (pollGo fetch base (attempt + 1) remaining).2.1 + 1,
            base * 2 ^ (attempt - 1) :: (pollGo fetch base (attempt + 1) remaining).2.2)
    | .error _ =>
      if remaining == 0 then (none, 1, [])
      else ((pollGo fetch base (attempt + 1) remaining).1,
            (pollGo fetch base (attempt + 1) remaining).2.1 + 1,
            base * 2 ^ (attempt - 1) :: (pollGo fetch base (attempt + 1) remaining).2.2)

/-- Embeds `pollForTranscript`: attempts run from 1 to `maxAttempts`; a
valid transcript returns immediately, every failure (thrown error or
invalid result) merely triggers the next attempt after an exponential
delay `baseDelayMs * 2 ^ (attempt - 1)`, with no delay after the final
attempt; exhaustion returns the `none` sentinel. -/
def pollForTranscript (cfg : RetryConfig) (fetch : FetchBehaviour) :
    Option String × Nat × List Nat :=
  pollGo fetch cfg.baseDelayMs 1 cfg.maxAttempts

/-! ## Character-level lemmas -/

theorem char_eq_iff_toNat (c d : Char) : c = d ↔ c.toNat = d.toNat := by
  rw [Char.ext_iff, UInt32.ext_iff]; rfl

theorem char_le_iff_toNat (c d : Char) : c ≤ d ↔ c.toNat ≤ d.toNat := by
  rw [Char.le_def, UInt32.le_def, BitVec.le_def]; rfl

theorem charToNat_ofNat {n : Nat} (h : n.isValidChar) : (Char.ofNat n).toNat = n := by
  simp only [Char.ofNat, dif_pos h, Char.ofNatAux, Char.toNat, UInt32.toNat]
  simp [BitVec.toNat_ofNatLt]

theorem lowerChar_spec (c : Char) :
    lowerChar c = c ∨
      (65 ≤ c.toNat ∧ c.toNat ≤ 90 ∧ (lowerChar c).toNat = c.toNat + 32) := by
  unfold lowerChar
  by_cases h : 'A' ≤ c ∧ c ≤ 'Z'
  · right
    have h1 : 65 ≤ c.toNat := (char_le_iff_toNat 'A' c).mp h.1
    have h2 : c.toNat ≤ 90 := (char_le_iff_toNat c 'Z').mp h.2
    have hv : (c.toNat + 32).isValidChar := Or.inl (by omega)
    rw [if_pos h, charToNat_ofNat hv]
    exact ⟨h1, h2, rfl⟩
  · left; rw [if_neg h]

theorem lowerChar_idem (c : Char) : lowerChar (lowerChar c) = lowerChar c := by
  rcases lowerChar_spec c with h | ⟨h1, h2, h3⟩
  · rw [h, h]
  · rcases lowerChar_spec (lowerChar c) with h' | ⟨h1', _, _⟩
    · exact h'
    · omega

theorem lowerChar_eq_low {c d : Char} (hd : d.toNat < 65) :
    lowerChar c = d ↔ c = d := by
  constructor
  · intro h
    rcases lowerChar_spec c with h' | ⟨_, _, h3⟩
    · rw [← h', h]
    · exfalso
      have : (lowerChar c).toNat = d.toNat := (char_eq_iff_toNat _ _).mp h
      omega
  · intro h
    subst h
    rcases lowerChar_spec c with h' | ⟨h1, _, _⟩
    · exact h'
    · omega

theorem lowerChar_isAlpha {c : Char} (h : c.isAlpha = true) :
    (lowerChar c).isAlpha = true := by
  have ha : ∀ e : Char, e.isAlpha = true ↔
      (65 ≤ e.toNat ∧ e.toNat ≤ 90) ∨ (97 ≤ e.toNat ∧ e.toNat ≤ 122) := by
    intro e
    simp only [Char.isAlpha, Char.isUpper, Char.isLower, Bool.or_eq_true,
      Bool.and_eq_true, decide_eq_true_eq, ge_iff_le, UInt32.le_def, BitVec.le_def]
    rfl
  rcases lowerChar_spec c with h' | ⟨h1, h2, h3⟩
  · rw [h']; exact h
  · rw [ha]; right; omega

theorem lowerChar_isSchemeChar {c : Char} (h : isSchemeChar c = true) :
    isSchemeChar (lowerChar c) = true := by
  rcases lowerChar_spec c with h' | ⟨h1, h2, h3⟩
  · rw [h']; exact h
  · have : (lowerChar c).isAlpha = true := by
      have ha : ∀ e : Char, e.isAlpha = true ↔
          (65 ≤ e.toNat ∧ e.toNat ≤ 90) ∨ (97 ≤ e.toNat ∧ e.toNat ≤ 122) := by
        intro e
        simp only [Char.isAlpha, Char.isUpper, Char.isLower, Bool.or_eq_true,
          Bool.and_eq_true, decide_eq_true_eq, ge_iff_le, UInt32.le_def, BitVec.le_def]
        rfl
      rw [ha]; right; omega
    simp [isSchemeChar, this]

theorem lowerChar_ne_of_lt {c d : Char} (hd : d.toNat < 97) (h : c ≠ d) :
    lowerChar c ≠ d := by
  rcases lowerChar_spec c with h' | ⟨h1, h2, h3⟩
  · rw [h']; exact h
  · intro he
    have := (char_eq_iff_toNat _ _).mp he
    omega

theorem lowerChar_isWs {c : Char} (h : isWsChar c = false) :
    isWsChar (lowerChar c) = false := by
  simp only [isWsChar, Bool.or_eq_false_iff, beq_eq_false_iff_ne] at h ⊢
  obtain ⟨⟨⟨⟨⟨a1, a2⟩, a3⟩, a4⟩, a5⟩, a6⟩ := h
  exact ⟨⟨⟨⟨⟨lowerChar_ne_of_lt (by decide) a1, lowerChar_ne_of_lt (by decide) a2⟩,
    lowerChar_ne_of_lt (by decide) a3⟩, lowerChar_ne_of_lt (by decide) a4⟩,
    lowerChar_ne_of_lt (by decide) a5⟩, lowerChar_ne_of_lt (by decide) a6⟩

theorem lowerChar_notHostEnd {c : Char} (h : notHostEnd c = true) :
    notHostEnd (lowerChar c) = true := by
  simp only [notHostEnd, Bool.and_eq_true, bne_iff_ne, ne_eq] at h ⊢
  obtain ⟨⟨a1, a2⟩, a3⟩ := h
  exact ⟨⟨lowerChar_ne_of_lt (by decide) a1, lowerChar_ne_of_lt (by decide) a2⟩,
    lowerChar_ne_of_lt (by decide) a3⟩

theorem lowerChar_ne_qm {c : Char} (h : (c != '?') = true) :
    (lowerChar c != '?') = true := by
  simp only [bne_iff_ne, ne_eq] at h ⊢
  exact lowerChar_ne_of_lt (by decide) h

/-! ## List-level lemmas -/

theorem tw_all {p : Char → Bool} {l : List Char} (h : ∀ c ∈ l, p c = true) :
    l.takeWhile p = l := by
  induction l with
  | nil => rfl
  | cons c cs ih =>
    rw [List.takeWhile_cons, if_pos (h c (List.mem_cons_self c cs))]
    rw [ih fun d hd => h d (List.mem_cons_of_mem c hd)]

theorem dw_nil {p : Char → Bool} {l : List Char} (h : ∀ c ∈ l, p c = true) :
    l.dropWhile p = [] := by
  induction l with
  | nil => rfl
  | cons c cs ih =>
    rw [List.dropWhile_cons, if_pos (h c (List.mem_cons_self c cs))]
    exact ih fun d hd => h d (List.mem_cons_of_mem c hd)

theorem tw_append_stop {p : Char → Bool} {a r : List Char} {d : Char}
    (ha : ∀ c ∈ a, p c = true) (hd : p d = false) :
    (a ++ d :: r).takeWhile p = a := by
  induction a with
  | nil => rw [List.nil_append, List.takeWhile_cons, if_neg (by simp [hd])]
  | cons c cs ih =>
    rw [List.cons_append, List.takeWhile_cons, if_pos (ha c (List.mem_cons_self c cs))]
    rw [ih fun e he => ha e (List.mem_cons_of_mem c he)]

theorem dw_append_stop {p : Char → Bool} {a r : List Char} {d : Char}
    (ha : ∀ c ∈ a, p c = true) (hd : p d = false) :
    (a ++ d :: r).dropWhile p = d :: r := by
  induction a with
  | nil => rw [List.nil_append, List.dropWhile_cons, if_neg (by simp [hd])]
  | cons c cs ih =>
    rw [List.cons_append, List.dropWhile_cons, if_pos (ha c (List.mem_cons_self c cs))]
    exact ih fun e he => ha e (List.mem_cons_of_mem c he)

theorem dw_eq_self {p : Char → Bool} {l : List Char}
    (h : ∀ c, l.head? = some c → p c = false) : l.dropWhile p = l := by
  cases l with
  | nil => rfl
  | cons c cs => rw [List.dropWhile_cons, if_neg (by simp [h c rfl])]

theorem map_eq_self_of {f : Char → Char} {l : List Char}
    (h : ∀ c ∈ l, f c = c) : l.map f = l := by
  rw [List.map_congr_left h]; simp

theorem head?_mem {l : List Char} {c : Char} (h : l.head? = some c) : c ∈ l := by
  cases l with
  | nil => simp at h
  | cons d ds =>
    simp only [List.head?_cons, Option.some.injEq] at h
    subst h
    exact List.mem_cons_self d ds

theorem mem_tw {p : Char → Bool} {l : List Char} {c : Char}
    (h : c ∈ l.takeWhile p) : c ∈ l :=
  (List.takeWhile_sublist p).mem h

theorem mem_dw {p : Char → Bool} {l : List Char} {c : Char}
    (h : c ∈ l.dropWhile p) : c ∈ l :=
  (List.dropWhile_sublist p).mem h

theorem dw_idem {p : Char → Bool} (l : List Char) :
    (l.dropWhile p).dropWhile p = l.dropWhile p := by
  apply dw_eq_self
  intro c hc
  induction l with
  | nil => simp at hc
  | cons d ds ih =>
    rw [List.dropWhile_cons] at hc
    by_cases hd : p d = true
    · rw [if_pos hd] at hc; exact ih hc
    · rw [if_neg (by simp [hd])] at hc
      simp only [List.head?_cons, Option.some.injEq] at hc
      subst hc
      simpa using hd

/-! ## `lowerL`, `trimL`, `stripSlashes` lemmas -/

theorem lowerL_fixed {l : List Char} : ∀ c ∈ lowerL l, lowerChar c = c := by
  intro c hc
  obtain ⟨d, _, rfl⟩ := List.mem_map.mp hc
  exact lowerChar_idem d

theorem lowerL_of_fixed {l : List Char} (h : ∀ c ∈ l, lowerChar c = c) :
    lowerL l = l := map_eq_self_of h

theorem lowerL_idem (l : List Char) : lowerL (lowerL l) = lowerL l :=
  lowerL_of_fixed lowerL_fixed

theorem lowerL_append (a b : List Char) : lowerL (a ++ b) = lowerL a ++ lowerL b :=
  List.map_append lowerChar a b

theorem trim_eq_self {l : List Char} (h : ∀ c ∈ l, isWsChar c = false) :
    trimL l = l := by
  have h1 : l.dropWhile isWsChar = l :=
    dw_eq_self fun c hc => h c (head?_mem hc)
  have h2 : l.reverse.dropWhile isWsChar = l.reverse :=
    dw_eq_self fun c hc => h c (List.mem_reverse.mp (head?_mem hc))
  unfold trimL
  rw [h1, h2, List.reverse_reverse]

theorem mem_stripSlashes {l : List Char} {c : Char} (h : c ∈ stripSlashes l) :
    c ∈ l := by
  unfold stripSlashes at h
  exact List.mem_reverse.mp (mem_dw (List.mem_reverse.mp h))

theorem stripSlashes_idem (l : List Char) :
    stripSlashes (stripSlashes l) = stripSlashes l := by
  unfold stripSlashes
  rw [List.reverse_reverse, dw_idem]

theorem stripSlashes_append_no_slash {l h : List Char} (hne : h ≠ [])
    (hs : ∀ c ∈ h, c ≠ '/') : stripSlashes (l ++ h) = l ++ h := by
  have h2 : (h.reverse ++ l.reverse).dropWhile (fun c => c == '/') =
      h.reverse ++ l.reverse := by
    apply dw_eq_self
    intro c hc
    cases hrev : h.reverse with
    | nil => exact absurd (List.reverse_eq_nil_iff.mp hrev) hne
    | cons d ds =>
      rw [hrev, List.cons_append] at hc
      simp only [List.head?_cons, Option.some.injEq] at hc
      subst hc
      have : d ∈ h := List.mem_reverse.mp (hrev ▸ List.mem_cons_self d ds)
      simpa using hs d this
  unfold stripSlashes
  rw [List.reverse_append, h2, ← List.reverse_append, List.reverse_reverse]

/-! ## URL parser round-trip -/

theorem isPrefixOf_cons_false {d c : Char} {t l : List Char} (h : d ≠ c) :
    (d :: t).isPrefixOf (c :: l) = false := by
  simp only [List.isPrefixOf, Bool.and_eq_false_iff]
  left
  exact beq_eq_false_iff_ne.mpr h

theorem splitFirst_boundary (b : List Char) :
    ∀ (a : List Char), (∀ c ∈ a, c ≠ ':') →
      splitFirst [':', '/', '/'] (a ++ [':', '/', '/'] ++ b) = some (a, b) := by
  intro a
  induction a with
  | nil =>
    intro _
    have hpre : ([':', '/', '/'] : List Char).isPrefixOf (':' :: '/' :: '/' :: b) = true :=
      List.isPrefixOf_iff_prefix.mpr (List.prefix_append _ _)
    rw [List.nil_append]
    show splitFirst [':', '/', '/'] (':' :: '/' :: '/' :: b) = some ([], b)
    rw [splitFirst, if_pos hpre]
    rfl
  | cons c cs ih =>
    intro ha
    have hc : c ≠ ':' := ha c (List.mem_cons_self c cs)
    have hcond : ([':', '/', '/'] : List Char).isPrefixOf
        (c :: (cs ++ [':', '/', '/'] ++ b)) = false :=
      isPrefixOf_cons_false fun h => hc h.symm
    have hshape : (c :: cs) ++ [':', '/', '/'] ++ b = c :: (cs ++ [':', '/', '/'] ++ b) := by
      simp [List.append_assoc]
    have hcond' : ¬(([':', '/', '/'] : List Char).isPrefixOf
        (c :: (cs ++ [':', '/', '/'] ++ b)) = true) := by
      rw [hcond]; exact Bool.false_ne_true
    rw [hshape, splitFirst, if_neg hcond']
    rw [ih fun d hd => ha d (List.mem_cons_of_mem c hd)]

theorem head?_takeWhile {p : Char → Bool} {l : List Char} {c : Char}
    (h : (l.takeWhile p).head? = some c) : p c = true :=
  List.mem_takeWhile_imp (head?_mem h)

theorem head?_dropWhile {p : Char → Bool} {l : List Char} {c : Char}
    (h : (l.dropWhile p).head? = some c) : p c = false := by
  induction l with
  | nil => simp at h
  | cons d ds ih =>
    rw [List.dropWhile_cons] at h
    by_cases hd : p d = true
    · rw [if_pos hd] at h; exact ih h
    · rw [if_neg (by simp [hd])] at h
      simp only [List.head?_cons, Option.some.injEq] at h
      subst h
      simpa using hd

theorem parse_wf {l : List Char} {u : UrlParts} (hp : parseUrl l = some u) :
    u.scheme ≠ [] ∧ (u.scheme.headD ' ').isAlpha = true ∧
    (∀ c ∈ u.scheme, isSchemeChar c = true) ∧
    u.host ≠ [] ∧ (∀ c ∈ u.host, notHostEnd c = true) ∧
    (∀ c ∈ u.path, (c != '#') = true) ∧ (∀ c ∈ u.path, (c != '?') = true) ∧
    (u.path = [] ∨ ∃ pr, u.path = '/' :: pr) ∧
    (∀ c ∈ u.query, (c != '#') = true) ∧
    (u.query = [] ∨ ∃ qr, u.query = '?' :: qr) := by
  unfold parseUrl at hp
  cases hsp : splitFirst [':', '/', '/'] l with
  | none => rw [hsp] at hp; exact absurd hp (by simp)
  | some pr =>
    obtain ⟨scheme, rest⟩ := pr
    rw [hsp] at hp
    simp only at hp
    by_cases h1 : scheme.isEmpty
    · rw [if_pos h1] at hp; exact absurd hp (by simp)
    rw [if_neg h1] at hp
    by_cases h2 : !((scheme.headD ' ').isAlpha)
    · rw [if_pos h2] at hp; exact absurd hp (by simp)
    rw [if_neg h2] at hp
    by_cases h3 : !(scheme.all isSchemeChar)
    · rw [if_pos h3] at hp; exact absurd hp (by simp)
    rw [if_neg h3] at hp
    by_cases h4 : (rest.takeWhile notHostEnd).isEmpty
    · rw [if_pos h4] at hp; exact absurd hp (by simp)
    rw [if_neg h4] at hp
    have hu : u = ⟨scheme, rest.takeWhile notHostEnd,
        ((rest.dropWhile notHostEnd).takeWhile (fun c => c != '#')).takeWhile
          (fun c => c != '?'),
        ((rest.dropWhile notHostEnd).takeWhile (fun c => c != '#')).dropWhile
          (fun c => c != '?'),
        (rest.dropWhile notHostEnd).dropWhile (fun c => c != '#')⟩ := by
      cases hp; rfl
    subst hu
    simp only
    refine ⟨by simpa using h1, by simpa using h2, ?_, by simpa using h4, ?_, ?_, ?_, ?_, ?_, ?_⟩
    · intro c hc
      exact List.all_eq_true.mp (by simpa using h3) c hc
    · intro c hc
      have h5 := List.mem_takeWhile_imp hc
      simpa using h5
    · intro c hc
      have h5 : c ∈ (rest.dropWhile notHostEnd).takeWhile (fun c => c != '#') :=
        mem_tw hc
      have h6 := List.mem_takeWhile_imp h5
      simpa using h6
    · intro c hc
      have h5 := List.mem_takeWhile_imp hc
      simpa using h5
    · cases hpath : ((rest.dropWhile notHostEnd).takeWhile
          (fun c => c != '#')).takeWhile (fun c => c != '?') with
      | nil => exact Or.inl rfl
      | cons c cr =>
        right
        refine ⟨cr, ?_⟩
        have hh1 : (((rest.dropWhile notHostEnd).takeWhile
            (fun c => c != '#')).takeWhile (fun c => c != '?')).head? = some c := by
          rw [hpath]; rfl
        have hc1 := head?_takeWhile hh1
        have hc2 : (c != '#') = true := by
          have h5 : c ∈ (rest.dropWhile notHostEnd).takeWhile (fun c => c != '#') :=
            mem_tw (hpath ▸ List.mem_cons_self c cr)
          have h6 := List.mem_takeWhile_imp h5
          simpa using h6
        have h5 : ((rest.dropWhile notHostEnd).takeWhile
            (fun c => c != '#')).head? = some c := by
          cases htw : (rest.dropWhile notHostEnd).takeWhile (fun c => c != '#') with
          | nil => rw [htw] at hpath; simp at hpath
          | cons d dr =>
            rw [htw, List.takeWhile_cons] at hpath
            by_cases hd : (d != '?') = true
            · rw [if_pos hd] at hpath
              simp only [List.cons.injEq] at hpath
              rw [List.head?_cons, hpath.1]
            · rw [if_neg hd] at hpath; simp at hpath
        have h6 : (rest.dropWhile notHostEnd).head? = some c := by
          cases hdw : rest.dropWhile notHostEnd with
          | nil => rw [hdw] at h5; simp at h5
          | cons d dr =>
            rw [hdw, List.takeWhile_cons] at h5
            by_cases hd : (d != '#') = true
            · rw [if_pos hd] at h5
              simp only [List.head?_cons, Option.some.injEq] at h5
              rw [List.head?_cons, h5]
            · rw [if_neg hd] at h5; simp at h5
        have hc3 := head?_dropWhile h6
        simp only [notHostEnd, Bool.and_eq_false_iff, bne_eq_false_iff_eq] at hc3
        rcases hc3 with h | h
        · rcases h with h | h
          · exact congrArg (· :: cr) h
          · exact absurd h (by simpa using hc1)
        · exact absurd h (by simpa using hc2)
    · intro c hc
      have h5 : c ∈ (rest.dropWhile notHostEnd).takeWhile (fun c => c != '#') :=
        mem_dw hc
      have h6 := List.mem_takeWhile_imp h5
      simpa using h6
    · cases hq : ((rest.dropWhile notHostEnd).takeWhile
          (fun c => c != '#')).dropWhile (fun c => c != '?') with
      | nil => exact Or.inl rfl
      | cons c cr =>
        right
        refine ⟨cr, ?_⟩
        have hh1 : (((rest.dropWhile notHostEnd).takeWhile
            (fun c => c != '#')).dropWhile (fun c => c != '?')).head? = some c := by
          rw [hq]; rfl
        have h5 := head?_dropWhile hh1
        have h6 : c = '?' := by simpa using h5
        exact congrArg (· :: cr) h6

theorem parse_serialize (u : UrlParts)
    (hs1 : u.scheme ≠ []) (hs2 : (u.scheme.headD ' ').isAlpha = true)
    (hs3 : ∀ c ∈ u.scheme, isSchemeChar c = true)
    (hh1 : u.host ≠ []) (hh2 : ∀ c ∈ u.host, notHostEnd c = true)
    (hp1 : ∀ c ∈ u.path, (c != '#') = true) (hp2 : ∀ c ∈ u.path, (c != '?') = true)
    (hp3 : u.path = [] ∨ ∃ pr, u.path = '/' :: pr)
    (hq1 : ∀ c ∈ u.query, (c != '#') = true)
    (hq2 : u.query = [] ∨ ∃ qr, u.query = '?' :: qr)
    (hf : u.frag = []) :
    parseUrl (serializeUrl u) = some ⟨lowerL u.scheme, lowerL u.host,
      if u.path.isEmpty then ['/'] else u.path, u.query, []⟩ := by
  obtain ⟨scheme, host, path, query, frag⟩ := u
  simp only at hs1 hs2 hs3 hh1 hh2 hp1 hp2 hp3 hq1 hq2 hf
  subst hf
  -- the serialized form, reassociated around the scheme separator
  have hser : serializeUrl ⟨scheme, host, path, query, []⟩ =
      lowerL scheme ++ [':', '/', '/'] ++
        (lowerL host ++ ((if path.isEmpty then ['/'] else path) ++ query)) := by
    simp [serializeUrl, List.append_assoc]
  -- the path part always starts with '/'
  obtain ⟨ptail, hpt⟩ : ∃ ptail, (if path.isEmpty then ['/'] else path) ++ query =
      '/' :: ptail := by
    rcases hp3 with h | ⟨pr, h⟩
    · subst h; exact ⟨query, rfl⟩
    · subst h; exact ⟨pr ++ query, rfl⟩
  have hschemeLow : ∀ c ∈ lowerL scheme, c ≠ ':' := by
    intro c hc
    obtain ⟨d, hd, rfl⟩ := List.mem_map.mp hc
    have hd2 : isSchemeChar (lowerChar d) = true := lowerChar_isSchemeChar (hs3 d hd)
    intro he
    rw [he] at hd2
    exact absurd hd2 (by decide)
  have hsp : splitFirst [':', '/', '/'] (serializeUrl ⟨scheme, host, path, query, []⟩) =
      some (lowerL scheme, lowerL host ++ ((if path.isEmpty then ['/'] else path) ++ query)) := by
    rw [hser]
    exact splitFirst_boundary _ _ hschemeLow
  have hhostLow : ∀ c ∈ lowerL host, notHostEnd c = true := by
    intro c hc
    obtain ⟨d, hd, rfl⟩ := List.mem_map.mp hc
    exact lowerChar_notHostEnd (hh2 d hd)
  have hhost : (lowerL host ++ ((if path.isEmpty then ['/'] else path) ++ query)).takeWhile
      notHostEnd = lowerL host := by
    rw [hpt]
    exact tw_append_stop hhostLow (by decide)
  have hrest2 : (lowerL host ++ ((if path.isEmpty then ['/'] else path) ++ query)).dropWhile
      notHostEnd = '/' :: ptail := by
    rw [hpt]
    exact dw_append_stop hhostLow (by decide)
  have hpqAll : ∀ c ∈ ('/' : Char) :: ptail, (c != '#') = true := by
    intro c hc
    rcases List.mem_cons.mp hc with h | h
    · subst h; decide
    · have : c ∈ (if path.isEmpty then ['/'] else path) ++ query := by
        have : ('/' : Char) :: ptail = (if path.isEmpty then ['/'] else path) ++ query :=
          hpt.symm
        rw [this] at hc
        exact hc
      rcases List.mem_append.mp this with h2 | h2
      · rcases hp3 with h3 | ⟨pr, h3⟩
        · subst h3
          simp only [List.isEmpty_nil, if_pos] at h2
          rcases List.mem_singleton.mp h2 with rfl
          decide
        · subst h3
          rw [if_neg (by simp)] at h2
          exact hp1 c h2
      · exact hq1 c h2
  have hpq : (('/' : Char) :: ptail).takeWhile (fun c => c != '#') = '/' :: ptail :=
    tw_all hpqAll
  have hfragNil : (('/' : Char) :: ptail).dropWhile (fun c => c != '#') = [] :=
    dw_nil hpqAll
  have hpathAll : ∀ c ∈ (if path.isEmpty then ['/'] else path), (c != '?') = true := by
    intro c hc
    rcases hp3 with h3 | ⟨pr, h3⟩
    · subst h3
      simp only [List.isEmpty_nil, if_pos] at hc
      rcases List.mem_singleton.mp hc with rfl
      decide
    · subst h3
      rw [if_neg (by simp)] at hc
      exact hp2 c hc
  have hpathSplit : (('/' : Char) :: ptail).takeWhile (fun c => c != '?') =
        (if path.isEmpty then ['/'] else path) ∧
      (('/' : Char) :: ptail).dropWhile (fun c => c != '?') = query := by
    rw [← hpt]
    rcases hq2 with h | ⟨qr, h⟩
    · subst h
      rw [List.append_nil]
      exact ⟨tw_all hpathAll, dw_nil hpathAll⟩
    · subst h
      exact ⟨tw_append_stop hpathAll (by decide), dw_append_stop hpathAll (by decide)⟩
  have hschemeNe : (lowerL scheme).isEmpty = false := by
    cases hsch : scheme with
    | nil => exact absurd hsch hs1
    | cons d ds => simp [lowerL]
  have hschemeHead : ((lowerL scheme).headD ' ').isAlpha = true := by
    cases hsch : scheme with
    | nil => exact absurd hsch hs1
    | cons d ds =>
      have : (lowerL (d :: ds)).headD ' ' = lowerChar d := by simp [lowerL]
      rw [this]
      apply lowerChar_isAlpha
      rw [hsch] at hs2
      simpa using hs2
  have hschemeAll : (lowerL scheme).all isSchemeChar = true := by
    rw [List.all_eq_true]
    intro c hc
    obtain ⟨d, hd, rfl⟩ := List.mem_map.mp hc
    exact lowerChar_isSchemeChar (hs3 d hd)
  have hhostNe : (lowerL host).isEmpty = false := by
    cases hh : host with
    | nil => exact absurd hh hh1
    | cons d ds => simp [lowerL]
  unfold parseUrl
  rw [hsp]
  simp only [hhost, hrest2, hpq, hfragNil, hpathSplit.1, hpathSplit.2,
    hschemeNe, hschemeHead, hschemeAll, hhostNe]
  simp

theorem normalizeUrl_fix {s : String} {u : UrlParts} (hp : parseUrl s.data = some u) :
    normalizeUrl (normalizeUrl s) = normalizeUrl s := by
  have h1 : normalizeUrl s = String.mk (serializeUrl { u with frag := [] }) := by
    unfold normalizeUrl
    rw [hp]
  obtain ⟨w1, w2, w3, w4, w5, w6, w7, w8, w9, w10⟩ := parse_wf hp
  have hps := parse_serialize { u with frag := [] } w1 w2 w3 w4 w5 w6 w7 w8 w9 w10 rfl
  rw [h1]
  unfold normalizeUrl
  have hd : (String.mk (serializeUrl { u with frag := [] })).data =
      serializeUrl { u with frag := [] } := rfl
  rw [hd, hps]
  -- serializing the re-parsed canonical parts yields the same string
  have hminor : serializeUrl ⟨lowerL u.scheme, lowerL u.host,
      if u.path.isEmpty then ['/'] else u.path, u.query, []⟩ =
      serializeUrl { u with frag := [] } := by
    unfold serializeUrl
    simp only
    rw [lowerL_idem, lowerL_idem]
    have hne : ((if u.path.isEmpty then ['/'] else u.path) : List Char).isEmpty = false := by
      rcases w8 with h | ⟨pr, h⟩
      · rw [h]; simp
      · rw [h]; simp [List.isEmpty_cons]
    rw [if_neg (by rw [hne]; exact Bool.false_ne_true)]
  exact congrArg String.mk hminor

theorem normalizeUrl_idem (s : String) :
    normalizeUrl (normalizeUrl s) = normalizeUrl s := by
  cases hp : parseUrl s.data with
  | none =>
    have h1 : normalizeUrl s = s := by
      unfold normalizeUrl
      rw [hp]
    rw [h1, h1]
  | some u => exact normalizeUrl_fix hp

/-! ## LinkedIn normalizer lemmas -/

theorem findProfile_cons_skip {c : Char} {cs : List Char}
    (h : inPat.isPrefixOf (c :: cs) = false) :
    findProfile (c :: cs) = findProfile cs := by
  rw [findProfile, if_neg (by rw [h]; exact Bool.false_ne_true)]

theorem findProfile_skip_of_ne {c : Char} {cs : List Char} (h : c ≠ 'l') :
    findProfile (c :: cs) = findProfile cs := by
  have hpat : inPat = 'l' :: "inkedin.com/in/".data := rfl
  have hp : inPat.isPrefixOf (c :: cs) = false := by
    rw [hpat]
    exact isPrefixOf_cons_false fun he => h he.symm
  exact findProfile_cons_skip hp

theorem findProfile_pat_append {h : List Char} (hne : h ≠ [])
    (hs : ∀ c ∈ h, (c != '/') = true) : findProfile (inPat ++ h) = some h := by
  have hpre : inPat.isPrefixOf ('l' :: ("inkedin.com/in/".data ++ h)) = true :=
    List.isPrefixOf_iff_prefix.mpr (List.prefix_append _ _)
  have hshape : inPat ++ h = 'l' :: ("inkedin.com/in/".data ++ h) := rfl
  have hdrop : (('l' : Char) :: ("inkedin.com/in/".data ++ h)).drop inPat.length = h := by
    rw [← hshape]
    exact List.drop_left _ _
  rw [hshape, findProfile, if_pos hpre, hdrop, tw_all hs]
  rw [if_neg (by rw [List.isEmpty_iff]; exact hne)]

theorem findProfile_canon {h : List Char} (hne : h ≠ [])
    (hs : ∀ c ∈ h, (c != '/') = true) : findProfile (canonPre ++ h) = some h := by
  have hshape : canonPre ++ h =
      'h' :: 't' :: 't' :: 'p' :: 's' :: ':' :: '/' :: '/' :: 'w' :: 'w' :: 'w' :: '.' ::
        (inPat ++ h) := rfl
  rw [hshape]
  rw [findProfile_skip_of_ne (show ('h' : Char) ≠ 'l' by decide)]
  rw [findProfile_skip_of_ne (show ('t' : Char) ≠ 'l' by decide)]
  rw [findProfile_skip_of_ne (show ('t' : Char) ≠ 'l' by decide)]
  rw [findProfile_skip_of_ne (show ('p' : Char) ≠ 'l' by decide)]
  rw [findProfile_skip_of_ne (show ('s' : Char) ≠ 'l' by decide)]
  rw [findProfile_skip_of_ne (show (':' : Char) ≠ 'l' by decide)]
  rw [findProfile_skip_of_ne (show ('/' : Char) ≠ 'l' by decide)]
  rw [findProfile_skip_of_ne (show ('/' : Char) ≠ 'l' by decide)]
  rw [findProfile_skip_of_ne (show ('w' : Char) ≠ 'l' by decide)]
  rw [findProfile_skip_of_ne (show ('w' : Char) ≠ 'l' by decide)]
  rw [findProfile_skip_of_ne (show ('w' : Char) ≠ 'l' by decide)]
  rw [findProfile_skip_of_ne (show ('.' : Char) ≠ 'l' by decide)]
  exact findProfile_pat_append hne hs

theorem findProfile_sub {l h : List Char} (hf : findProfile l = some h) :
    h ≠ [] ∧ ∀ c ∈ h, c ∈ l ∧ (c != '/') = true := by
  induction l with
  | nil => simp [findProfile] at hf
  | cons c cs ih =>
    rw [findProfile] at hf
    by_cases hc : inPat.isPrefixOf (c :: cs) = true
    · rw [if_pos hc] at hf
      by_cases he : (((c :: cs).drop inPat.length).takeWhile
          (fun d => d != '/')).isEmpty = true
      · rw [if_pos he] at hf
        obtain ⟨h1, h2⟩ := ih hf
        exact ⟨h1, fun d hd => ⟨List.mem_cons_of_mem c (h2 d hd).1, (h2 d hd).2⟩⟩
      · rw [if_neg he] at hf
        have hfh : ((c :: cs).drop inPat.length).takeWhile (fun d => d != '/') = h := by
          injection hf
        constructor
        · intro hnil
          rw [hfh, hnil] at he
          exact he rfl
        · intro d hd
          rw [← hfh] at hd
          have hmem := List.mem_of_mem_drop (mem_tw hd)
          have hpred := List.mem_takeWhile_imp hd
          exact ⟨hmem, by simpa using hpred⟩
    · rw [if_neg hc] at hf
      obtain ⟨h1, h2⟩ := ih hf
      exact ⟨h1, fun d hd => ⟨List.mem_cons_of_mem c (h2 d hd).1, (h2 d hd).2⟩⟩

theorem linkedin_norm_some {s : String} (h0 : s.data.isEmpty = false) :
    normalizeLinkedInUrl (some s) =
      (match findProfile (stripSlashes ((trimL (lowerL s.data)).takeWhile
          (fun c => c != '?'))) with
      | some handle => some (String.mk (canonPre ++ handle))
      | none =>
        some (String.mk (stripSlashes ((trimL (lowerL s.data)).takeWhile
          (fun c => c != '?'))))) := by
  have hr : normalizeLinkedInUrl (some s) =
      (if s.data.isEmpty = true then none
       else match findProfile (stripSlashes ((trimL (lowerL s.data)).takeWhile
          (fun c => c != '?'))) with
      | some handle => some (String.mk (canonPre ++ handle))
      | none =>
        some (String.mk (stripSlashes ((trimL (lowerL s.data)).takeWhile
          (fun c => c != '?'))))) := rfl
  rw [hr, if_neg (by rw [h0]; exact Bool.false_ne_true)]

theorem linkedin_idem {s : String} (hws : ∀ c ∈ s.data, isWsChar c = false)
    (hne : normalizeLinkedInUrl (some s) ≠ some "") :
    normalizeLinkedInUrl (normalizeLinkedInUrl (some s)) =
      normalizeLinkedInUrl (some s) := by
  by_cases h0 : s.data.isEmpty = true
  · have hres : normalizeLinkedInUrl (some s) = none := by
      have hr : normalizeLinkedInUrl (some s) =
          (if s.data.isEmpty = true then none
           else match findProfile (stripSlashes ((trimL (lowerL s.data)).takeWhile
              (fun c => c != '?'))) with
          | some handle => some (String.mk (canonPre ++ handle))
          | none =>
            some (String.mk (stripSlashes ((trimL (lowerL s.data)).takeWhile
              (fun c => c != '?'))))) := rfl
      rw [hr, if_pos h0]
    rw [hres]
    rfl
  · have h0' : s.data.isEmpty = false := by simpa using h0
    have hLws : ∀ c ∈ lowerL s.data, isWsChar c = false := by
      intro c hc
      obtain ⟨d, hd, rfl⟩ := List.mem_map.mp hc
      exact lowerChar_isWs (hws d hd)
    have htrim : trimL (lowerL s.data) = lowerL s.data := trim_eq_self hLws
    -- properties of the pre-match normalized list u3
    have hu3fix : ∀ c ∈ stripSlashes ((trimL (lowerL s.data)).takeWhile
        (fun c => c != '?')), lowerChar c = c := by
      intro c hc
      have : c ∈ lowerL s.data := by
        have h1 := mem_stripSlashes hc
        rw [htrim] at h1
        exact mem_tw h1
      exact lowerL_fixed c this
    have hu3ws : ∀ c ∈ stripSlashes ((trimL (lowerL s.data)).takeWhile
        (fun c => c != '?')), isWsChar c = false := by
      intro c hc
      have : c ∈ lowerL s.data := by
        have h1 := mem_stripSlashes hc
        rw [htrim] at h1
        exact mem_tw h1
      exact hLws c this
    have hu3q : ∀ c ∈ stripSlashes ((trimL (lowerL s.data)).takeWhile
        (fun c => c != '?')), (c != '?') = true := by
      intro c hc
      have h1 := mem_stripSlashes hc
      have h2 := List.mem_takeWhile_imp h1
      simpa using h2
    rw [linkedin_norm_some h0']
    cases hfp : findProfile (stripSlashes ((trimL (lowerL s.data)).takeWhile
        (fun c => c != '?'))) with
    | none =>
      -- result is the stripped list itself; a second pass leaves it unchanged
      have hneq : stripSlashes ((trimL (lowerL s.data)).takeWhile
          (fun c => c != '?')) ≠ [] := by
        intro hnil
        apply hne
        rw [linkedin_norm_some h0', hfp, hnil]
      have hdata : (String.mk (stripSlashes ((trimL (lowerL s.data)).takeWhile
          (fun c => c != '?')))).data = stripSlashes ((trimL (lowerL s.data)).takeWhile
          (fun c => c != '?')) := rfl
      have hisEmpty : (stripSlashes ((trimL (lowerL s.data)).takeWhile
          (fun c => c != '?'))).isEmpty = false := by
        cases hu : stripSlashes ((trimL (lowerL s.data)).takeWhile (fun c => c != '?')) with
        | nil => exact absurd hu hneq
        | cons d dr => rfl
      rw [linkedin_norm_some (show (String.mk (stripSlashes ((trimL (lowerL s.data)).takeWhile
          (fun c => c != '?')))).data.isEmpty = false by rw [hdata]; exact hisEmpty)]
      rw [hdata]
      have hlow : lowerL (stripSlashes ((trimL (lowerL s.data)).takeWhile
          (fun c => c != '?'))) = stripSlashes ((trimL (lowerL s.data)).takeWhile
          (fun c => c != '?')) := lowerL_of_fixed hu3fix
      rw [hlow]
      have htrim2 : trimL (stripSlashes ((trimL (lowerL s.data)).takeWhile
          (fun c => c != '?'))) = stripSlashes ((trimL (lowerL s.data)).takeWhile
          (fun c => c != '?')) := trim_eq_self hu3ws
      rw [htrim2]
      have htw2 : (stripSlashes ((trimL (lowerL s.data)).takeWhile
          (fun c => c != '?'))).takeWhile (fun c => c != '?') =
          stripSlashes ((trimL (lowerL s.data)).takeWhile (fun c => c != '?')) :=
        tw_all hu3q
      rw [htw2, stripSlashes_idem, hfp]
    | some handle =>
      obtain ⟨hh1, hh2⟩ := findProfile_sub hfp
      have hhfix : ∀ c ∈ handle, lowerChar c = c := fun c hc => hu3fix c (hh2 c hc).1
      have hhws : ∀ c ∈ handle, isWsChar c = false := fun c hc => hu3ws c (hh2 c hc).1
      have hhq : ∀ c ∈ handle, (c != '?') = true := fun c hc => hu3q c (hh2 c hc).1
      have hhslash : ∀ c ∈ handle, (c != '/') = true := fun c hc => (hh2 c hc).2
      have hdata : (String.mk (canonPre ++ handle)).data = canonPre ++ handle := rfl
      have hisEmpty : (canonPre ++ handle).isEmpty = false := rfl
      rw [linkedin_norm_some (show (String.mk (canonPre ++ handle)).data.isEmpty = false
        by rw [hdata]; exact hisEmpty)]
      rw [hdata]
      have hlow : lowerL (canonPre ++ handle) = canonPre ++ handle := by
        rw [lowerL_append]
        rw [show lowerL canonPre = canonPre by decide]
        rw [lowerL_of_fixed hhfix]
      rw [hlow]
      have htrim2 : trimL (canonPre ++ handle) = canonPre ++ handle := by
        apply trim_eq_self
        intro c hc
        rcases List.mem_append.mp hc with h | h
        · exact (by decide : ∀ c ∈ canonPre, isWsChar c = false) c h
        · exact hhws c h
      rw [htrim2]
      have htw2 : (canonPre ++ handle).takeWhile (fun c => c != '?') =
          canonPre ++ handle := by
        apply tw_all
        intro c hc
        rcases List.mem_append.mp hc with h | h
        · exact (by decide : ∀ c ∈ canonPre, (c != '?') = true) c h
        · exact hhq c h
      rw [htw2]
      have hstrip : stripSlashes (canonPre ++ handle) = canonPre ++ handle := by
        apply stripSlashes_append_no_slash hh1
        intro c hc
        have := hhslash c hc
        simpa using this
      rw [hstrip, findProfile_canon hh1 hhslash]

/-! ## Store and matcher lemmas -/

theorem mem_cleanup {now : Int} {s : List StoredBooking} {r : StoredBooking} :
    r ∈ cleanup now s ↔ r ∈ s ∧ now - r.createdAt ≤ TTL_MS := by
  simp [cleanup, List.mem_filter]

theorem findLoop_some {c : Candidate} {l : List StoredBooking} {r : StoredBooking}
    (h : findLoop c l = some r) :
    r ∈ l ∧ emailsAlign r.guestEmail r.hostEmail c.guestEmail c.hostEmail = true := by
  induction l with
  | nil => simp [findLoop] at h
  | cons b rest ih =>
    rw [findLoop] at h
    by_cases h1 : ((present c.meetingUrl && present b.meetingUrl &&
        (normalizeUrl (b.meetingUrl.getD "") == normalizeUrl (c.meetingUrl.getD ""))) &&
        emailsAlign b.guestEmail b.hostEmail c.guestEmail c.hostEmail) = true
    · rw [if_pos h1] at h
      have hrb : b = r := by injection h
      subst hrb
      rw [Bool.and_eq_true] at h1
      exact ⟨List.mem_cons_self b rest, h1.2⟩
    · rw [if_neg h1] at h
      by_cases h2 : (timeClose b.startTime c.startTime &&
          emailsAlign b.guestEmail b.hostEmail c.guestEmail c.hostEmail) = true
      · rw [if_pos h2] at h
        have hrb : b = r := by injection h
        subst hrb
        rw [Bool.and_eq_true] at h2
        exact ⟨List.mem_cons_self b rest, h2.2⟩
      · rw [if_neg h2] at h
        obtain ⟨hm, ha⟩ := ih h
        exact ⟨List.mem_cons_of_mem b hm, ha⟩

theorem findMatch_some {now : Int} {store : List StoredBooking} {c : Candidate}
    {r : StoredBooking} (h : findMatch now store c = some r) :
    r ∈ store ∧ now - r.createdAt ≤ TTL_MS ∧
    emailsAlign r.guestEmail r.hostEmail c.guestEmail c.hostEmail = true := by
  unfold findMatch at h
  by_cases hg : (!present c.meetingUrl && !c.startTime.isSome) = true
  · rw [if_pos hg] at h
    exact absurd h (by simp)
  · rw [if_neg hg] at h
    obtain ⟨hm, ha⟩ := findLoop_some h
    obtain ⟨hm2, ht⟩ := mem_cleanup.mp hm
    exact ⟨hm2, ht, ha⟩

theorem findLoop_single_time {c : Candidate} {r : StoredBooking}
    (ht : timeClose r.startTime c.startTime = true)
    (ha : emailsAlign r.guestEmail r.hostEmail c.guestEmail c.hostEmail = true) :
    findLoop c [r] = some r := by
  rw [findLoop]
  by_cases h1 : ((present c.meetingUrl && present r.meetingUrl &&
      (normalizeUrl (r.meetingUrl.getD "") == normalizeUrl (c.meetingUrl.getD ""))) &&
      emailsAlign r.guestEmail r.hostEmail c.guestEmail c.hostEmail) = true
  · rw [if_pos h1]
  · rw [if_neg h1, if_pos (by rw [ht, ha]; rfl)]

theorem findLoop_single_url {c : Candidate} {r : StoredBooking}
    (hu1 : present c.meetingUrl = true) (hu2 : present r.meetingUrl = true)
    (hu3 : normalizeUrl (r.meetingUrl.getD "") = normalizeUrl (c.meetingUrl.getD ""))
    (ha : emailsAlign r.guestEmail r.hostEmail c.guestEmail c.hostEmail = true) :
    findLoop c [r] = some r := by
  rw [findLoop, if_pos (by rw [hu1, hu2, ha, beq_iff_eq.mpr hu3]; rfl)]

theorem cleanup_keep_single {now : Int} {r : StoredBooking}
    (h : now - r.createdAt ≤ TTL_MS) : cleanup now [r] = [r] := by
  simp only [cleanup, List.filter_cons, decide_eq_true_eq]
  rw [if_pos h]
  rfl

theorem findMatch_single {now : Int} {r : StoredBooking} {c : Candidate}
    (hlive : now - r.createdAt ≤ TTL_MS)
    (hguard : (!present c.meetingUrl && !c.startTime.isSome) = false)
    (hloop : findLoop c [r] = some r) :
    findMatch now [r] c = some r := by
  unfold findMatch
  rw [cleanup_keep_single hlive, if_neg (by rw [hguard]; exact Bool.false_ne_true), hloop]

/-! ## Pending-lead map lemmas -/

theorem mapGet_mapDelete {α : Type} (k : String) (m : List (String × α)) :
    mapGet k (mapDelete k m) = none := by
  induction m with
  | nil => rfl
  | cons p rest ih =>
    obtain ⟨k', v'⟩ := p
    by_cases hk : (k' == k) = true
    · have hb : ((k' : String) != k) = false := by rw [bne, hk]; rfl
      have hshape : mapDelete k ((k', v') :: rest) = mapDelete k rest := by
        simp only [mapDelete, List.filter_cons]
        rw [if_neg (by show ¬((k' != k) = true); rw [hb]; exact Bool.false_ne_true)]
      rw [hshape]
      exact ih
    · have hb : ((k' : String) != k) = true := by rw [bne]; simp [hk]
      have hshape : mapDelete k ((k', v') :: rest) = (k', v') :: mapDelete k rest := by
        simp only [mapDelete, List.filter_cons]
        rw [if_pos (by show (k' != k) = true; exact hb)]
      rw [hshape, mapGet, if_neg hk]
      exact ih

theorem mapGet_mapSet_self {α : Type} (k : String) (v : α) (m : List (String × α)) :
    mapGet k (mapSet k v m) = some v := by
  induction m with
  | nil => simp [mapSet, mapGet]
  | cons p rest ih =>
    obtain ⟨k', v'⟩ := p
    by_cases hk : k' == k
    · rw [mapSet, if_pos hk, mapGet, if_pos (by simp)]
    · rw [mapSet, if_neg hk, mapGet, if_neg hk]
      exact ih

theorem mem_mapSet {α : Type} {k : String} {v : α} {m : List (String × α)}
    {p : String × α} (h : p ∈ mapSet k v m) : p ∈ m ∨ p = (k, v) := by
  induction m with
  | nil => simpa [mapSet] using h
  | cons q rest ih =>
    obtain ⟨k', v'⟩ := q
    rw [mapSet] at h
    by_cases hk : k' == k
    · rw [if_pos hk] at h
      rcases List.mem_cons.mp h with h | h
      · exact Or.inr h
      · exact Or.inl (List.mem_cons_of_mem _ h)
    · rw [if_neg hk] at h
      rcases List.mem_cons.mp h with h | h
      · exact Or.inl (h ▸ List.mem_cons_self _ _)
      · rcases ih h with h2 | h2
        · exact Or.inl (List.mem_cons_of_mem _ h2)
        · exact Or.inr h2

/-! ## Polling lemmas -/

/-- One fetch invocation that fails: either a thrown error, or a result the
validity predicate rejects. -/
def failsAt (fetch : FetchBehaviour) (i : Nat) : Prop :=
  (∃ e, fetch i = Except.error e) ∨ ∃ t, fetch i = Except.ok t ∧ transcriptValid t = false

theorem pollGo_fail_succ (fetch : FetchBehaviour) (base attempt remaining : Nat)
    (h : failsAt fetch attempt) :
    pollGo fetch base attempt (remaining + 1) =
      if remaining = 0 then (none, 1, [])
      else ((pollGo fetch base (attempt + 1) remaining).1,
            (pollGo fetch base (attempt + 1) remaining).2.1 + 1,
            base * 2 ^ (attempt - 1) :: (pollGo fetch base (attempt + 1) remaining).2.2) := by
  rcases h with ⟨e, he⟩ | ⟨t, ht, hv⟩
  · rw [pollGo, he]
    by_cases h0 : remaining = 0
    · subst h0; rfl
    · rw [if_neg (by simpa using h0), if_neg h0]
  · rw [pollGo]
    simp only [ht]
    rw [if_neg (by rw [hv]; exact Bool.false_ne_true)]
    by_cases h0 : remaining = 0
    · subst h0; rfl
    · rw [if_neg (by simpa using h0), if_neg h0]

theorem addBooking_empty (now : Int) (b : Booking) :
    addBooking now b [] = [⟨b, now⟩] := by
  unfold addBooking setBooking
  exact cleanup_keep_single (by norm_num [TTL_MS])

theorem present_of_ne {s : String} (h : s.data ≠ []) : present (some s) = true := by
  show (!s.data.isEmpty) = true
  cases hd : s.data with
  | nil => exact absurd hd h
  | cons d dr => rfl

/-! ## Claim theorems -/

/-- C1: for every fetch behaviour that on each invocation either throws or
yields a result rejected by the validity predicate, `pollForTranscript` with
the configured retry settings performs exactly 5 fetch calls, waits
30000, 60000, 120000 and 240000 ms after attempts 1-4 (`baseDelayMs *
2^(attempt-1)`), performs no wait after the final attempt, never aborts the
loop early on a thrown fetch error, and returns the `none` not-found
sentinel instead of raising an error. -/
theorem claim_C1_retry_budget (fetch : FetchBehaviour)
    (hfail : ∀ i, 1 ≤ i → i ≤ configRetry.maxAttempts → failsAt fetch i) :
    pollForTranscript configRetry fetch = (none, 5, [30000, 60000, 120000, 240000]) := by
  have h5 := pollGo_fail_succ fetch 30000 5 0 (hfail 5 (by norm_num) (by norm_num [configRetry]))
  norm_num at h5
  have h4 := pollGo_fail_succ fetch 30000 4 1 (hfail 4 (by norm_num) (by norm_num [configRetry]))
  norm_num [h5] at h4
  have h3 := pollGo_fail_succ fetch 30000 3 2 (hfail 3 (by norm_num) (by norm_num [configRetry]))
  norm_num [h4] at h3
  have h2 := pollGo_fail_succ fetch 30000 2 3 (hfail 2 (by norm_num) (by norm_num [configRetry]))
  norm_num [h3] at h2
  have h1 := pollGo_fail_succ fetch 30000 1 4 (hfail 1 (by norm_num) (by norm_num [configRetry]))
  norm_num [h2] at h1
  show pollGo fetch 30000 1 5 = (none, 5, [30000, 60000, 120000, 240000])
  exact h1

/-- C1 witness: a fetch behaviour that always throws exhausts all 5 attempts
with the exponential delays and returns the sentinel. -/
theorem claim_C1_witness :
    pollForTranscript configRetry (fun _ => Except.error "boom") =
      (none, 5, [30000, 60000, 120000, 240000]) :=
  claim_C1_retry_budget _ (fun _ _ _ => Or.inl ⟨"boom", rfl⟩)

/-- C2 counterexample: the stored URL `https://zoom.us/j/123?pwd=abc` and the
candidate URL `https://zoom.us/j/123` differ only in query string (the parser
yields identical scheme, host and path, and empty fragments) and the guest
emails align, yet `findMatch` returns `none` — `normalizeUrl` keeps the query
string, it strips only the fragment. -/
theorem claim_C2_counterexample :
    parseUrl "https://zoom.us/j/123?pwd=abc".data =
      some ⟨"https".data, "zoom.us".data, "/j/123".data, "?pwd=abc".data, []⟩ ∧
    parseUrl "https://zoom.us/j/123".data =
      some ⟨"https".data, "zoom.us".data, "/j/123".data, [], []⟩ ∧
    emailsAlign (some "a@x.com") none (some "a@x.com") none = true ∧
    findMatch 0
      [⟨⟨"E1", some "https://zoom.us/j/123?pwd=abc", none, none,
        some "a@x.com", none, none⟩, 0⟩]
      ⟨some "https://zoom.us/j/123", some "a@x.com", none, none⟩ = none := by
  refine ⟨by decide, by decide, by decide, by decide⟩

/-- C2 amended: the URL match rule compares meeting URLs after a
normalization that strips only the fragment (hash), not the query string;
for every stored booking and candidate whose meeting URLs parse to the same
scheme, host, path and query (differing only in fragment), and whose emails
align, `findMatch` on the live singleton store returns that booking. -/
theorem claim_C2_amended {b : Booking} {T now : Int} {c : Candidate}
    {ub uc : String} {pu pc : UrlParts}
    (hb : b.meetingUrl = some ub) (hc : c.meetingUrl = some uc)
    (hbne : ub.data ≠ []) (hcne : uc.data ≠ [])
    (hpu : parseUrl ub.data = some pu) (hpc : parseUrl uc.data = some pc)
    (hsch : pu.scheme = pc.scheme) (hhost : pu.host = pc.host)
    (hpath : pu.path = pc.path) (hquery : pu.query = pc.query)
    (ha : emailsAlign b.guestEmail b.hostEmail c.guestEmail c.hostEmail = true)
    (hlive : now - T ≤ TTL_MS) :
    findMatch now [⟨b, T⟩] c = some ⟨b, T⟩ := by
  have hnb : normalizeUrl ((⟨b, T⟩ : StoredBooking).meetingUrl.getD "") =
      String.mk (serializeUrl { pu with frag := [] }) := by
    show normalizeUrl (b.meetingUrl.getD "") = _
    rw [hb]
    show normalizeUrl ub = _
    unfold normalizeUrl
    rw [hpu]
  have hnc : normalizeUrl (c.meetingUrl.getD "") =
      String.mk (serializeUrl { pc with frag := [] }) := by
    rw [hc]
    show normalizeUrl uc = _
    unfold normalizeUrl
    rw [hpc]
  have heq : normalizeUrl ((⟨b, T⟩ : StoredBooking).meetingUrl.getD "") =
      normalizeUrl (c.meetingUrl.getD "") := by
    rw [hnb, hnc]
    unfold serializeUrl
    rw [hsch, hhost, hpath, hquery]
  have hpc : present c.meetingUrl = true := by
    rw [hc]
    exact present_of_ne hcne
  have hpb : present (⟨b, T⟩ : StoredBooking).meetingUrl = true := by
    show present b.meetingUrl = true
    rw [hb]
    exact present_of_ne hbne
  apply findMatch_single hlive
  · rw [hpc]; rfl
  · exact findLoop_single_url hpc hpb heq ha

/-- C2 witness for the amended rule: URLs differing only in fragment match
through the URL branch. -/
theorem claim_C2_witness :
    findMatch 0
      [⟨⟨"E1", some "https://zoom.us/j/123#late", none, none,
        some "a@x.com", none, none⟩, 0⟩]
      ⟨some "https://zoom.us/j/123", some "A@X.com", none, none⟩ =
      some ⟨⟨"E1", some "https://zoom.us/j/123#late", none, none,
        some "a@x.com", none, none⟩, 0⟩ :=
  claim_C2_amended rfl rfl (by decide) (by decide)
    (show parseUrl "https://zoom.us/j/123#late".data =
      some ⟨"https".data, "zoom.us".data, "/j/123".data, [], "#late".data⟩ by decide)
    (show parseUrl "https://zoom.us/j/123".data =
      some ⟨"https".data, "zoom.us".data, "/j/123".data, [], []⟩ by decide)
    rfl rfl rfl rfl (by decide) (by decide)

theorem string_eq_empty_iff {s : String} : s = "" ↔ s.data = [] := by
  constructor
  · intro h
    rw [h]
  · intro h
    cases s with
    | mk l =>
      simp only at h
      rw [h]

theorem matchGuestB_iff (rg g : Option String) :
    matchGuestB rg g = true ↔
      ∃ a b, rg = some a ∧ g = some b ∧ a.data ≠ [] ∧ b.data ≠ [] ∧
        lowerStr a = lowerStr b := by
  cases rg with
  | none => simp [matchGuestB]
  | some a =>
    cases g with
    | none => simp [matchGuestB]
    | some b =>
      simp only [matchGuestB, Bool.and_eq_true, Bool.not_eq_true',
        Option.some.injEq, beq_iff_eq]
      constructor
      · rintro ⟨⟨h1, h2⟩, h3⟩
        exact ⟨a, b, rfl, rfl, by simpa [List.isEmpty_iff] using h1,
          by simpa [List.isEmpty_iff] using h2, h3⟩
      · rintro ⟨a2, b2, ha, hb, h1, h2, h3⟩
        subst ha
        subst hb
        refine ⟨⟨?_, ?_⟩, h3⟩
        · cases hd : a.data with
          | nil => exact absurd hd h1
          | cons x xs => rfl
        · cases hd : b.data with
          | nil => exact absurd hd h2
          | cons x xs => rfl

theorem matchHostB_iff (rh h : Option String) :
    matchHostB rh h = true ↔
      (rh = none ∨ rh = some "" ∨ h = none ∨ h = some "" ∨
        ∃ a b, rh = some a ∧ h = some b ∧ lowerStr a = lowerStr b) := by
  cases rh with
  | none => simp [matchHostB]
  | some a =>
    cases h with
    | none => simp [matchHostB]
    | some b =>
      simp only [matchHostB, Bool.or_eq_true, Option.some.injEq, beq_iff_eq]
      constructor
      · rintro ((h1 | h1) | h1)
        · exact Or.inr (Or.inl (string_eq_empty_iff.mpr (List.isEmpty_iff.mp h1)))
        · exact Or.inr (Or.inr (Or.inr (Or.inl
            (string_eq_empty_iff.mpr (List.isEmpty_iff.mp h1)))))
        · exact Or.inr (Or.inr (Or.inr (Or.inr ⟨a, b, rfl, rfl, h1⟩)))
      · rintro (h1 | h1 | h1 | h1 | ⟨a2, b2, ha, hb, h1⟩)
        · exact absurd h1 (by simp)
        · left; left
          rw [string_eq_empty_iff.mp h1]
          rfl
        · exact absurd h1 (by simp)
        · left; right
          rw [string_eq_empty_iff.mp h1]
          rfl
        · subst ha
          subst hb
          right
          exact h1

/-- C3: `findMatch` returns a booking only when email alignment holds, and
alignment is exactly: guest emails both present (truthy) and equal after
lower-casing, while host emails act as a non-blocking wildcard when absent
or empty on either side and must be equal after lower-casing when both are
present. -/
theorem claim_C3_email_alignment :
    (∀ (now : Int) (store : List StoredBooking) (c : Candidate) (r : StoredBooking),
       findMatch now store c = some r →
       emailsAlign r.guestEmail r.hostEmail c.guestEmail c.hostEmail = true) ∧
    (∀ rg rh g h : Option String,
       emailsAlign rg rh g h = true ↔
         ((∃ a b, rg = some a ∧ g = some b ∧ a.data ≠ [] ∧ b.data ≠ [] ∧
             lowerStr a = lowerStr b) ∧
          (rh = none ∨ rh = some "" ∨ h = none ∨ h = some "" ∨
            ∃ a b, rh = some a ∧ h = some b ∧ lowerStr a = lowerStr b))) := by
  constructor
  · intro now store c r h
    exact (findMatch_some h).2.2
  · intro rg rh g h
    unfold emailsAlign
    rw [Bool.and_eq_true, matchGuestB_iff, matchHostB_iff]

/-- C3 witness: a successful match implies alignment at a concrete store and
candidate, and the characterization holds at a concrete aligned input. -/
theorem claim_C3_witness :
    emailsAlign (some "a@x.com") none (some "A@X.com") (some "h@x.com") = true ∧
    (emailsAlign (some "a@x.com") none (some "A@X.com") (some "h@x.com") = true ↔
      ((∃ a b, (some "a@x.com" : Option String) = some a ∧
          (some "A@X.com" : Option String) = some b ∧ a.data ≠ [] ∧ b.data ≠ [] ∧
          lowerStr a = lowerStr b) ∧
       ((none : Option String) = none ∨ (none : Option String) = some "" ∨
         (some "h@x.com" : Option String) = none ∨
         (some "h@x.com" : Option String) = some "" ∨
         ∃ a b, (none : Option String) = some a ∧
           (some "h@x.com" : Option String) = some b ∧ lowerStr a = lowerStr b))) :=
  ⟨claim_C3_email_alignment.1 0
      [⟨⟨"E1", none, some 100, none, some "a@x.com", none, none⟩, 0⟩]
      ⟨none, some "A@X.com", some "h@x.com", some 100⟩
      ⟨⟨"E1", none, some 100, none, some "a@x.com", none, none⟩, 0⟩ (by decide),
    claim_C3_email_alignment.2 (some "a@x.com") none (some "A@X.com") (some "h@x.com")⟩

/-- C4: for every lead stored in the pending-lead store under a normalized
profile URL, `getPendingLead` with any spelling that normalizes to that key
returns the stored lead and removes it, and a second immediate call for the
same URL returns absent: a lead is consumed at most once. -/
theorem claim_C4_consume_once {url : Option String} {k : String} {v : StoredLead}
    {store : PendingStore}
    (hn : normalizeLinkedInUrl url = some k) (hk : k.data ≠ [])
    (hget : mapGet k store = some v) :
    getPendingLead url store = (some v, mapDelete k store) ∧
    getPendingLead url (mapDelete k store) = (none, mapDelete k store) := by
  have htr : truthyS (normalizeLinkedInUrl url) = some k := by
    rw [hn]
    show (if k.data.isEmpty = true then none else some k) = some k
    rw [if_neg]
    intro hcontra
    rw [List.isEmpty_iff] at hcontra
    exact hk hcontra
  constructor
  · unfold getPendingLead
    rw [htr]
    show (match mapGet k store with
      | some lead => (some lead, mapDelete k store)
      | none => (none, store)) = (some v, mapDelete k store)
    rw [hget]
  · unfold getPendingLead
    rw [htr]
    show (match mapGet k (mapDelete k store) with
      | some lead => (some lead, mapDelete k (mapDelete k store))
      | none => (none, mapDelete k store)) = (none, mapDelete k store)
    rw [mapGet_mapDelete]

/-- C4 witness: a stored lead under the canonical johndoe key is returned
and deleted for a differently spelled URL, and the second call is absent. -/
theorem claim_C4_witness :
    getPendingLead (some "LinkedIn.com/in/JohnDoe?trk=x")
        [("https://www.linkedin.com/in/johndoe",
          ⟨"https://www.linkedin.com/in/johndoe", some "John", some "hi there", none, 7⟩)] =
      (some ⟨"https://www.linkedin.com/in/johndoe", some "John", some "hi there", none, 7⟩,
        mapDelete "https://www.linkedin.com/in/johndoe"
          [("https://www.linkedin.com/in/johndoe",
            ⟨"https://www.linkedin.com/in/johndoe", some "John", some "hi there", none, 7⟩)]) ∧
    getPendingLead (some "LinkedIn.com/in/JohnDoe?trk=x")
        (mapDelete "https://www.linkedin.com/in/johndoe"
          [("https://www.linkedin.com/in/johndoe",
            ⟨"https://www.linkedin.com/in/johndoe", some "John", some "hi there", none, 7⟩)]) =
      (none,
        mapDelete "https://www.linkedin.com/in/johndoe"
          [("https://www.linkedin.com/in/johndoe",
            ⟨"https://www.linkedin.com/in/johndoe", some "John", some "hi there", none, 7⟩)]) :=
  claim_C4_consume_once (by decide) (by decide) (by decide)

/-- C5: every booking-store operation runs the expiry sweep — membership in
the swept store is exactly membership with age at most `TTL_MS`, every
record surviving `addBooking` is within the TTL, a booking inserted at `T`
is still returnable by `findMatch` at `T + TTL_MS - 1`, and a booking whose
age is at least `TTL_MS + 1` is never returned by `findMatch`. -/
theorem claim_C5_ttl_sweep :
    (∀ (now : Int) (s : List StoredBooking) (r : StoredBooking),
       r ∈ cleanup now s ↔ r ∈ s ∧ now - r.createdAt ≤ TTL_MS) ∧
    (∀ (now : Int) (rec : Booking) (s : List StoredBooking) (r : StoredBooking),
       r ∈ addBooking now rec s → now - r.createdAt ≤ TTL_MS) ∧
    (∀ (b : Booking) (T : Int) (c : Candidate),
       present c.meetingUrl = true → present b.meetingUrl = true →
       normalizeUrl (b.meetingUrl.getD "") = normalizeUrl (c.meetingUrl.getD "") →
       emailsAlign b.guestEmail b.hostEmail c.guestEmail c.hostEmail = true →
       findMatch (T + TTL_MS - 1) (addBooking T b []) c = some ⟨b, T⟩) ∧
    (∀ (now T : Int) (s : List StoredBooking) (c : Candidate) (r : StoredBooking),
       r.createdAt = T → T + TTL_MS + 1 ≤ now → findMatch now s c ≠ some r) := by
  refine ⟨?_, ?_, ?_, ?_⟩
  · intro now s r
    exact mem_cleanup
  · intro now rec s r h
    exact (mem_cleanup.mp h).2
  · intro b T c hc hb heq ha
    rw [addBooking_empty]
    apply findMatch_single
    · simp only [TTL_MS]
      omega
    · rw [hc]; rfl
    · exact findLoop_single_url hc hb heq ha
  · intro now T s c r hT hage hmatch
    have := (findMatch_some hmatch).2.1
    omega

/-- C5 witness: a URL-matching booking is returned one millisecond before
TTL expiry, and is never returned once its age passes the TTL. -/
theorem claim_C5_witness :
    findMatch (0 + TTL_MS - 1)
      (addBooking 0 ⟨"E1", some "https://zoom.us/j/9", none, none,
        some "a@x.com", none, none⟩ [])
      ⟨some "https://zoom.us/j/9", some "a@x.com", none, none⟩ =
      some ⟨⟨"E1", some "https://zoom.us/j/9", none, none,
        some "a@x.com", none, none⟩, 0⟩ ∧
    findMatch (TTL_MS + 1)
      [⟨⟨"E1", some "https://zoom.us/j/9", none, none,
        some "a@x.com", none, none⟩, 0⟩]
      ⟨some "https://zoom.us/j/9", some "a@x.com", none, none⟩ ≠
      some ⟨⟨"E1", some "https://zoom.us/j/9", none, none,
        some "a@x.com", none, none⟩, 0⟩ :=
  ⟨claim_C5_ttl_sweep.2.2.1 _ 0 _ (by decide) (by decide) rfl (by decide),
    claim_C5_ttl_sweep.2.2.2 (TTL_MS + 1) 0 _ _ _ rfl (by norm_num)⟩

/-- C7: a candidate whose start time is within 15 minutes of a live stored
booking's start time, with aligned emails, matches that booking via the
time-proximity rule. -/
theorem claim_C7_time_window {b : Booking} {T now : Int} {c : Candidate}
    {t t2 : Int}
    (hlive : now - T ≤ TTL_MS)
    (hbt : b.startTime = some t2) (hct : c.startTime = some t)
    (hdelta : (t2 - t).natAbs ≤ 15 * 60 * 1000)
    (ha : emailsAlign b.guestEmail b.hostEmail c.guestEmail c.hostEmail = true) :
    findMatch now [⟨b, T⟩] c = some ⟨b, T⟩ := by
  apply findMatch_single hlive
  · rw [hct]
    simp
  · apply findLoop_single_time
    · show timeClose b.startTime c.startTime = true
      rw [hbt, hct]
      unfold timeClose
      exact decide_eq_true hdelta
    · exact ha

/-- C7 witness: the end-to-end scenario — booking E1 stored with
`https://zoom.us/j/123?pwd=abc` and start 2024-01-15T10:00:00Z
(1705312800000 ms), candidate with `https://zoom.us/j/123`, guest `A@X.com`
and start 2024-01-15T10:05:00Z (1705313100000 ms) — matches E1 via the
5-minute delta and case-insensitive email equality. -/
theorem claim_C7_witness :
    findMatch 0
      [⟨⟨"E1", some "https://zoom.us/j/123?pwd=abc", some 1705312800000, none,
        some "a@x.com", none, none⟩, 0⟩]
      ⟨some "https://zoom.us/j/123", some "A@X.com", none, some 1705313100000⟩ =
      some ⟨⟨"E1", some "https://zoom.us/j/123?pwd=abc", some 1705312800000, none,
        some "a@x.com", none, none⟩, 0⟩ :=
  claim_C7_time_window (by decide) rfl rfl (by decide) (by decide)

/-- C8: a candidate with neither meeting URL nor start time is never matched,
regardless of the store contents or candidate emails — `findMatch` refuses
to match on email alone. -/
theorem claim_C8_refuse {now : Int} {store : List StoredBooking} {c : Candidate}
    (h1 : present c.meetingUrl = false) (h2 : c.startTime = none) :
    findMatch now store c = none := by
  unfold findMatch
  rw [if_pos (by rw [h1, h2]; rfl)]

/-- C8 witness: even with a stored booking carrying the same emails, a
candidate with no URL and no start time yields no match. -/
theorem claim_C8_witness :
    findMatch 0
      [⟨⟨"E1", some "https://zoom.us/j/9", some 100, none,
        some "a@x.com", none, some "h@x.com"⟩, 0⟩]
      ⟨none, some "a@x.com", some "h@x.com", none⟩ = none :=
  claim_C8_refuse rfl rfl

/-- C6 counterexample: `normalizeLinkedInUrl` is not idempotent on every
string — the input `"/"` normalizes to `""` (trailing-slash strip empties
it), and `""` is falsy so its normalization is `null`. -/
theorem claim_C6_counterexample :
    normalizeLinkedInUrl (normalizeLinkedInUrl (some "/")) ≠
      normalizeLinkedInUrl (some "/") := by
  decide

/-- C6 amended: the generic meeting-URL normalizer is idempotent on every
string; `normalizeLinkedInUrl` is idempotent on every whitespace-free input
whose normalization is non-empty (which covers the already-canonical,
trailing-slash, query-string and mixed-case profile URL forms), but not on
every string (e.g. `"/"`). -/
theorem claim_C6_amended :
    (∀ s : String, normalizeUrl (normalizeUrl s) = normalizeUrl s) ∧
    (∀ s : String, (∀ c ∈ s.data, isWsChar c = false) →
      normalizeLinkedInUrl (some s) ≠ some "" →
      normalizeLinkedInUrl (normalizeLinkedInUrl (some s)) =
        normalizeLinkedInUrl (some s)) :=
  ⟨normalizeUrl_idem, fun _ h1 h2 => linkedin_idem h1 h2⟩

/-- C6 witness: idempotence at concrete canonical, trailing-slash,
query-string and mixed-case inputs for both normalizers. -/
theorem claim_C6_witness :
    normalizeUrl (normalizeUrl "HTTPS://Zoom.us/j/123?pwd=abc#x") =
      normalizeUrl "HTTPS://Zoom.us/j/123?pwd=abc#x" ∧
    normalizeLinkedInUrl (normalizeLinkedInUrl
        (some "https://www.LinkedIn.com/in/JohnDoe/?trk=x")) =
      normalizeLinkedInUrl (some "https://www.LinkedIn.com/in/JohnDoe/?trk=x") :=
  ⟨claim_C6_amended.1 "HTTPS://Zoom.us/j/123?pwd=abc#x",
    claim_C6_amended.2 "https://www.LinkedIn.com/in/JohnDoe/?trk=x"
      (by decide) (by decide)⟩

/-- C9 counterexample: `addPendingLead` with the whitespace-containing URL
`"a /"` stores the key `"a "`, which is not a fixed point of
`normalizeLinkedInUrl` (it renormalizes to `"a"`). -/
theorem claim_C9_counterexample :
    (addPendingLead 0 ⟨some "a /", none, none, none⟩ []).2.map Prod.fst = ["a "] ∧
    normalizeLinkedInUrl (some "a ") ≠ some "a " := by
  refine ⟨by decide, by decide⟩

/-- C9 amended: `addPendingLead` and `getPendingLead` preserve the invariant
that every stored entry's `linkedinUrl` field equals its key;
`addPendingLead` stores under the truthy normalization of the inserting URL
and stamps the value with `addedAt`; and the key is a fixed point of
`normalizeLinkedInUrl` whenever the inserting URL is whitespace-free
(`hasPendingLead` never modifies the store, so it preserves the invariant
trivially). -/
theorem claim_C9_amended :
    (∀ (now : Int) (lead : Lead) (store : PendingStore),
       (∀ p ∈ store, p.2.linkedinUrl = p.1) →
       ∀ p ∈ (addPendingLead now lead store).2, p.2.linkedinUrl = p.1) ∧
    (∀ (url : Option String) (store : PendingStore),
       (∀ p ∈ store, p.2.linkedinUrl = p.1) →
       ∀ p ∈ (getPendingLead url store).2, p.2.linkedinUrl = p.1) ∧
    (∀ (now : Int) (lead : Lead) (store : PendingStore) (k : String),
       normalizeLinkedInUrl lead.linkedinUrl = some k → k.data ≠ [] →
       (addPendingLead now lead store).1 = some k ∧
       mapGet k (addPendingLead now lead store).2 =
         some ⟨k, lead.name, lead.conversation, lead.taggedAt, now⟩) ∧
    (∀ (s : String) (k : String), (∀ c ∈ s.data, isWsChar c = false) →
       normalizeLinkedInUrl (some s) = some k → k.data ≠ [] →
       normalizeLinkedInUrl (some k) = some k) := by
  refine ⟨?_, ?_, ?_, ?_⟩
  · intro now lead store hinv p hp
    unfold addPendingLead at hp
    cases htr : truthyS (normalizeLinkedInUrl lead.linkedinUrl) with
    | none =>
      rw [htr] at hp
      exact hinv p hp
    | some k =>
      rw [htr] at hp
      simp only at hp
      rcases mem_mapSet hp with h | h
      · exact hinv p h
      · rw [h]
  · intro url store hinv p hp
    unfold getPendingLead at hp
    cases htr : truthyS (normalizeLinkedInUrl url) with
    | none =>
      rw [htr] at hp
      exact hinv p hp
    | some k =>
      rw [htr] at hp
      simp only at hp
      cases hget : mapGet k store with
      | some lead =>
        rw [hget] at hp
        simp only [mapDelete] at hp
        exact hinv p (List.mem_filter.mp hp).1
      | none =>
        rw [hget] at hp
        exact hinv p hp
  · intro now lead store k hn hk
    have htr : truthyS (normalizeLinkedInUrl lead.linkedinUrl) = some k := by
      rw [hn]
      show (if k.data.isEmpty = true then none else some k) = some k
      rw [if_neg]
      intro hcontra
      rw [List.isEmpty_iff] at hcontra
      exact hk hcontra
    constructor
    · unfold addPendingLead
      rw [htr]
    · unfold addPendingLead
      rw [htr]
      exact mapGet_mapSet_self k _ store
  · intro s k hws hn hk
    have hne : normalizeLinkedInUrl (some s) ≠ some "" := by
      rw [hn]
      intro hcontra
      have : k = "" := by injection hcontra
      exact hk (string_eq_empty_iff.mp this)
    have := linkedin_idem hws hne
    rw [hn] at this
    exact this

/-- C9 witness: a whitespace-free HeyReach URL is stored under its canonical
fixed-point key with the `addedAt` stamp and `linkedinUrl` equal to the
key. -/
theorem claim_C9_witness :
    ((addPendingLead 3 ⟨some "linkedin.com/in/JohnDoe/", some "John", some "convo", none⟩
        []).1 = some "https://www.linkedin.com/in/johndoe" ∧
      mapGet "https://www.linkedin.com/in/johndoe"
        (addPendingLead 3 ⟨some "linkedin.com/in/JohnDoe/", some "John", some "convo", none⟩
          []).2 =
        some ⟨"https://www.linkedin.com/in/johndoe", some "John", some "convo", none, 3⟩) ∧
    normalizeLinkedInUrl (some "https://www.linkedin.com/in/johndoe") =
      some "https://www.linkedin.com/in/johndoe" :=
  ⟨claim_C9_amended.2.2.1 3 ⟨some "linkedin.com/in/JohnDoe/", some "John", some "convo", none⟩
      [] "https://www.linkedin.com/in/johndoe" (by decide) (by decide),
    claim_C9_amended.2.2.2 "linkedin.com/in/JohnDoe/" "https://www.linkedin.com/in/johndoe"
      (by decide) (by decide) (by decide)⟩

/-- C10: the expiry sweep evicts only entries whose age strictly exceeds
`TTL_MS` — an entry whose age is exactly `TTL_MS` at sweep time is retained
and is still returnable by `findMatch`; an evicted entry's age strictly
exceeds `TTL_MS`. -/
theorem claim_C10_boundary :
    (∀ (now : Int) (s : List StoredBooking) (r : StoredBooking),
       r ∈ s → now - r.createdAt = TTL_MS → r ∈ cleanup now s) ∧
    (∀ (now : Int) (s : List StoredBooking) (r : StoredBooking),
       r ∈ s → r ∉ cleanup now s → TTL_MS < now - r.createdAt) ∧
    (∀ (b : Booking) (T : Int) (c : Candidate),
       present c.meetingUrl = true → present b.meetingUrl = true →
       normalizeUrl (b.meetingUrl.getD "") = normalizeUrl (c.meetingUrl.getD "") →
       emailsAlign b.guestEmail b.hostEmail c.guestEmail c.hostEmail = true →
       findMatch (T + TTL_MS) (addBooking T b []) c = some ⟨b, T⟩) := by
  refine ⟨?_, ?_, ?_⟩
  · intro now s r hmem hage
    exact mem_cleanup.mpr ⟨hmem, le_of_eq hage⟩
  · intro now s r hmem hout
    by_contra hcon
    exact hout (mem_cleanup.mpr ⟨hmem, by omega⟩)
  · intro b T c hc hb heq ha
    rw [addBooking_empty]
    apply findMatch_single
    · simp only [TTL_MS]
      omega
    · rw [hc]; rfl
    · exact findLoop_single_url hc hb heq ha

/-- C10 witness: a booking whose age is exactly the TTL is still returned
by `findMatch`. -/
theorem claim_C10_witness :
    findMatch (0 + TTL_MS)
      (addBooking 0 ⟨"E1", some "https://zoom.us/j/9", none, none,
        some "a@x.com", none, none⟩ [])
      ⟨some "https://zoom.us/j/9", some "a@x.com", none, none⟩ =
      some ⟨⟨"E1", some "https://zoom.us/j/9", none, none,
        some "a@x.com", none, none⟩, 0⟩ :=
  claim_C10_boundary.2.2 _ 0 _ (by decide) (by decide) rfl (by decide)

end CalendlyAttio
